import Mathlib

/-
Shallow embedding of trendvisdata/trend.py (GBERESEARCH/trendvisdata).

Conventions of the embedding:
  - closing prices are exact rationals;
  - calendar dates are integers counting days, so that the pandas
    DateOffset of minus w weeks is subtraction of 7 * w days, while the
    month offset (whose day-of-month clamping is calendar specific) is an
    abstract function passed as a parameter;
  - a pandas DataFrame of closing prices is a date index together with
    named columns of prices aligned to that index;
  - raising an exception is modelled by Option.none (or Except.error),
    and the bare try/except of the source by an Option fallback;
  - the external norgatedata package and the sibling modules
    (trend_params, trend_data, market_data, chart_data) are not part of
    src, so their outputs appear as parameters of the embedded functions.
-/

/- Sequencing of a loop whose body may raise: the loop of the source
   stops at the first exception, which Option.none propagates. -/
def omap {α β : Type} (f : α → Option β) : List α → Option (List β)
  | [] => some []
  | a :: l =>
    match f a with
    | none => none
    | some b =>
      match omap f l with
      | none => none
      | some bs => some (b :: bs)

/- First-occurrence deduplication, as pandas creates DataFrame columns:
   a fresh label is appended, an existing one is reused in place. -/
def dedupGo : List String → List String → List String
  | acc, [] => acc
  | acc, x :: xs => if x ∈ acc then dedupGo acc xs else dedupGo (acc ++ [x]) xs

def dedupFirst (l : List String) : List String := dedupGo [] l

/- Tenor configuration, mirroring the tenor_mappings dictionary of
   trend_params: day-counts, week to day-count and month to day-count
   mappings in declaration order, and day-count to column label. -/
structure TenorMappings where
  days : List Nat
  weeks : List (Nat × Nat)
  months : List (Nat × Nat)
  labels : List (Nat × String)
deriving DecidableEq, Repr

/- One tenor request, in the order the three loops of get_returns run. -/
inductive Tenor where
  | day : Nat → Tenor
  | week : Nat → Nat → Tenor
  | month : Nat → Nat → Tenor
deriving DecidableEq, Repr

/- The closing-price history DataFrame: date index plus one price column
   per instrument, each aligned to the index. -/
structure History where
  index : List Int
  cols : List (String × List ℚ)
deriving DecidableEq, Repr

/- One element of the output data list: the instrument name stored under
   label, then one value per tenor column; none models a NaN cell. -/
structure AssetRecord where
  label : String
  values : List (String × Option ℚ)
deriving DecidableEq, Repr

/- The returns_dict the source builds: data records plus the label list. -/
structure ReturnsDict where
  data : List AssetRecord
  labels : List String
deriving DecidableEq, Repr

/- Python series.iloc with a negative position: iloc with position -n is
   the element n from the end and raises IndexError past the start. -/
def ilocNeg (vals : List ℚ) (n : Nat) : Option ℚ :=
  if 1 ≤ n ∧ n ≤ vals.length then vals.get? (vals.length - n) else none

/- Day-count return of get_returns, lines 443 to 447 of trend.py:
   (iloc[-1] - iloc[-day-1]) / iloc[-day-1] * 100. -/
def dayCalc (vals : List ℚ) (day : Nat) : Option ℚ :=
  match ilocNeg vals 1, ilocNeg vals (day + 1) with
  | some pl, some pd => some ((pl - pd) / pd * 100)
  | _, _ => none

/- Python frame.loc lookup of a date in the index of a column. -/
def locAt (index : List Int) (vals : List ℚ) (d : Int) : Option ℚ :=
  (index.zip vals).lookup d

/- Calendar-exact return between the last date and a target date, the
   try branch of the week and month loops of get_returns. -/
def calCalc (index : List Int) (vals : List ℚ) (endDate target : Int) : Option ℚ :=
  match locAt index vals endDate, locAt index vals target with
  | some pe, some ps => some ((pe - ps) / ps * 100)
  | _, _ => none

/- Bare try/except of the source: the calendar-exact return if the
   lookup succeeds, the day-count arithmetic otherwise. -/
def calOr (index : List Int) (vals : List ℚ) (endDate target : Int)
    (fallbackDay : Nat) : Option ℚ :=
  match calCalc index vals endDate target with
  | some v => some v
  | none => dayCalc vals fallbackDay

/- Week-count return: target date is the last date minus 7 * w days. -/
def weekRet (index : List Int) (vals : List ℚ) (endDate : Int)
    (w wd : Nat) : Option ℚ :=
  calOr index vals endDate (endDate - 7 * (w : Int)) wd

/- Month-count return: the target date comes from the abstract pandas
   month offset passed as the parameter mo. -/
def monthRet (index : List Int) (vals : List ℚ) (endDate : Int)
    (mo : Int → Nat → Int) (m md : Nat) : Option ℚ :=
  calOr index vals endDate (mo endDate m) md

/- One loop-body iteration of get_returns for one tenor of one column:
   the computed value paired with the label the cell is stored under. -/
def entryCalc (index : List Int) (endDate : Int) (labels : List (Nat × String))
    (mo : Int → Nat → Int) (vals : List ℚ) : Tenor → Option (String × ℚ)
  | Tenor.day d =>
    match dayCalc vals d, labels.lookup d with
    | some v, some lab => some (lab, v)
    | _, _ => none
  | Tenor.week w wd =>
    match weekRet index vals endDate w wd, labels.lookup wd with
    | some v, some lab => some (lab, v)
    | _, _ => none
  | Tenor.month m md =>
    match monthRet index vals endDate mo m md, labels.lookup md with
    | some v, some lab => some (lab, v)
    | _, _ => none

/- The three loops of get_returns in source order: all requested
   day-counts, then the weeks, then the months, declaration order. -/
def tenorSeq (tm : TenorMappings) : List Tenor :=
  tm.days.map Tenor.day ++ tm.weeks.map (fun p => Tenor.week p.1 p.2)
    ++ tm.months.map (fun p => Tenor.month p.1 p.2)

/- Label a tenor entry is stored under, as the source looks it up. -/
def tenorLabel (labels : List (Nat × String)) : Tenor → Option String
  | Tenor.day d => labels.lookup d
  | Tenor.week _ wd => labels.lookup wd
  | Tenor.month _ md => labels.lookup md

/- All cells computed for one instrument column, in assignment order. -/
def colReturns (index : List Int) (endDate : Int) (tm : TenorMappings)
    (mo : Int → Nat → Int) (vals : List ℚ) : Option (List (String × ℚ)) :=
  omap (entryCalc index endDate tm.labels mo vals) (tenorSeq tm)

/- Last assignment wins, as repeated loc writes to one cell overwrite. -/
def lookupLast (es : List (String × ℚ)) (t : String) : Option ℚ :=
  es.reverse.lookup t

/- ReturnsHistory.get_returns, lines 411 to 499 of trend.py: end date is
   the last index entry, each column is processed through the three tenor
   loops, the resulting frame is transposed into one record per
   instrument plus the list of column labels in creation order. -/
def get_returns (h : History) (tm : TenorMappings)
    (mo : Int → Nat → Int) : Option ReturnsDict :=
  match h.index.getLast? with
  | none => none
  | some endDate =>
    match omap (fun c => (colReturns h.index endDate tm mo c.2).map
        (fun es => (c.1, es))) h.cols with
    | none => none
    | some rows =>
      let tenors := dedupFirst ((rows.map (fun r => r.2.map Prod.fst)).flatten)
      some { data := rows.map (fun r =>
               { label := r.1,
                 values := tenors.map (fun t => (t, lookupLast r.2 t)) }),
             labels := tenors }

/- Labels in tenor declaration order, as the spec describes them. -/
def expectedLabels (tm : TenorMappings) : Option (List String) :=
  omap (tenorLabel tm.labels) (tenorSeq tm)

/- State threading for the frame property of get_returns: the source
   reads history and tenor_mappings and writes only the fresh returns_df
   and returns_dict, so only the output component of the state changes. -/
structure RetState where
  history : History
  tenor_mappings : TenorMappings
  returnsOut : Option ReturnsDict

def get_returns_run (mo : Int → Nat → Int) (s : RetState) : RetState :=
  { s with returnsOut := get_returns s.history s.tenor_mappings mo }

/- Python ticker[-4:]: the last four characters, or the whole string
   when it is shorter than four characters. -/
def lastFour (s : String) : String :=
  String.mk ((s.toList).drop (s.toList.length - 4))

/- ReturnsHistory.get_tickers, lines 334 to 361 of trend.py: the first
   four Norgate databases plus the last one, their symbols concatenated
   in enumeration order, then tickers whose last four characters are
   _CCB removed.  The external norgatedata package supplies the database
   names and the symbols of each database as parameters. -/
def get_tickers (alldatabasenames : List String)
    (database_symbols : String → List String) : Option (List String) :=
  match alldatabasenames.getLast? with
  | none => none
  | some lastDb =>
    let databasenames := alldatabasenames.take 4 ++ [lastDb]
    let all_tickers := (databasenames.map database_symbols).flatten
    some (all_tickers.filter (fun t => lastFour t != ("_CCB")))

/- The unfiltered enumeration the loop of get_tickers walks. -/
def selected_tickers (alldatabasenames : List String)
    (database_symbols : String → List String) : Option (List String) :=
  (alldatabasenames.getLast?).map (fun lastDb =>
    ((alldatabasenames.take 4 ++ [lastDb]).map database_symbols).flatten)

/- Price table under construction in get_history: date index plus
   named columns of optional cells, none modelling a NaN. -/
structure PriceTable where
  dates : List Int
  cols : List (String × List (Option ℚ))
deriving DecidableEq, Repr

/- One loop iteration of get_history: the first series sets the index,
   later ones are concatenated with alignment on the union of dates
   (union order modelled as first appearance; the row order does not
   affect the properties stated about the result). -/
def addColumn (t : PriceTable) (name : String) (s : List (Int × ℚ)) : PriceTable :=
  if t.dates.isEmpty then
    { dates := s.map Prod.fst,
      cols := t.cols ++ [(name, s.map (fun p => some p.2))] }
  else
    let newDates := t.dates ++ ((s.map Prod.fst).filter
      (fun d => ¬ t.dates.contains d))
    { dates := newDates,
      cols := (t.cols.map (fun c =>
          (c.1, newDates.map (fun d => ((t.dates.zip c.2).lookup d).join))))
        ++ [(name, newDates.map (fun d => s.lookup d))] }

def buildTable (tickers : List (String × List (Int × ℚ))) : PriceTable :=
  tickers.foldl (fun t c => addColumn t c.1 c.2) { dates := [], cols := [] }

/- pandas ffill along the index of one column: a NaN cell takes the
   most recent earlier value, leading NaN cells stay NaN. -/
def ffillCol : Option ℚ → List (Option ℚ) → List (Option ℚ)
  | _, [] => []
  | last, c :: cs =>
    match c with
    | some v => some v :: ffillCol (some v) cs
    | none => last :: ffillCol last cs

def ffillTable (t : PriceTable) : PriceTable :=
  { t with cols := t.cols.map (fun c => (c.1, ffillCol none c.2)) }

/- Row i survives dropna when every column holds a value there. -/
def rowComplete (cols : List (String × List (Option ℚ))) (i : Nat) : Bool :=
  cols.all (fun c => ((c.2.get? i).getD none).isSome)

def dropNaRows (t : PriceTable) : PriceTable :=
  let keep := (List.range t.dates.length).filter (fun i => rowComplete t.cols i)
  { dates := keep.filterMap (fun i => t.dates.get? i),
    cols := t.cols.map (fun c => (c.1, keep.filterMap (fun i => c.2.get? i))) }

/- ReturnsHistory.get_history, lines 364 to 408 of trend.py: collect the
   closing-price column of every ticker (series supplied by the external
   norgatedata package), forward-fill, then drop incomplete rows. -/
def get_history (tickers : List (String × List (Int × ℚ))) : PriceTable :=
  dropNaRows (ffillTable (buildTable tickers))

def noMissing (t : PriceTable) : Bool :=
  t.cols.all (fun c => c.2.all (fun cell => cell.isSome))

/- Tables dictionary of TrendStrength.trend_calc: the raw price tables,
   the derived per-instrument indicator tables, the barometer. -/
structure TrendTables (ρ τ β : Type) where
  raw_ticker_dict : ρ
  ticker_dict : Option τ
  barometer : Option β
deriving DecidableEq, Repr

/- TrendStrength.trend_calc, lines 257 to 289 of trend.py: the indicator
   tables come from Fields.generate_fields on the raw price tables, the
   barometer from Fields.generate_trend_strength on those indicator
   tables and the sector mappings; both generators live in the external
   trend_data module and are parameters here. -/
def trend_calc {π ρ τ σ β : Type} (generate_fields : π → ρ → τ)
    (generate_trend_strength : π → τ → σ → β)
    (params : π) (tables : TrendTables ρ τ β) (mappings : σ) :
    TrendTables ρ τ β :=
  let td := generate_fields params tables.raw_ticker_dict
  { tables with
    ticker_dict := some td,
    barometer := some (generate_trend_strength params td mappings) }

/- Python dict assignment d[k] = v: overwrite the entry when the key is
   present, append a fresh entry otherwise. -/
def dictSet {α : Type} (d : List (String × α)) (k : String) (v : α) :
    List (String × α) :=
  if (d.lookup k).isSome then
    d.map (fun p => if p.1 = k then (k, v) else p)
  else
    d ++ [(k, v)]

/- TrendStrength._init_params, lines 131 to 154 of trend.py: deep-copy
   the defaults (value semantics here), then overwrite key by key with
   the supplied inputs. -/
def init_params {α : Type} (defaults inputs : List (String × α)) :
    List (String × α) :=
  inputs.foldl (fun acc kv => dictSet acc kv.1 kv.2) defaults

/- Run of _init_params against the global default dictionary: the deep
   copy means the global dictionary comes back unchanged next to the
   fresh params dictionary. -/
def init_params_run {α : Type} (globals inputs : List (String × α)) :
    List (String × α) × List (String × α) :=
  (globals, init_params globals inputs)

/- TrendStrength.__init__, lines 87 to 128 of trend.py, around the
   source dispatch of lines 104 to 119: build params, then dispatch on
   params of key source.  The source has no else branch, so any other
   source value leaves the tables variable unassigned and the later
   trend_calc call raises; that failure is the error branch here.  The
   two data preparations and the downstream pipeline are external
   collaborators passed as parameters. -/
def ts_construct {τ μ ω : Type} (defaults inputs : List (String × String))
    (prep_norgate prep_yahoo :
      List (String × String) → μ → List (String × String) × τ × μ)
    (pipeline : List (String × String) → τ → μ → ω)
    (mappings : μ) : Except String ω :=
  let params := init_params defaults inputs
  match params.lookup ("source") with
  | some s =>
    if s = ("norgate") then
      let r := prep_norgate params mappings
      Except.ok (pipeline r.1 r.2.1 r.2.2)
    else if s = ("yahoo") then
      let r := prep_yahoo params mappings
      Except.ok (pipeline r.1 r.2.1 r.2.2)
    else
      Except.error ("source not recognised: tables never assigned")
  | none => Except.error ("source parameter missing")

/- Generic lemmas about the loop combinator omap. -/

theorem omap_get {α β : Type} (f : α → Option β) :
    ∀ (l : List α) (bs : List β), omap f l = some bs →
      bs.length = l.length ∧
      ∀ (i : Nat) (a : α), l.get? i = some a →
        ∃ b, bs.get? i = some b ∧ f a = some b := by
  intro l
  induction l with
  | nil =>
    intro bs h
    simp only [omap, Option.some.injEq] at h
    subst h
    exact ⟨rfl, by intro i a ha; simp at ha⟩
  | cons x xs ih =>
    intro bs h
    cases hfx : f x with
    | none => simp [omap, hfx] at h
    | some b =>
      cases hrest : omap f xs with
      | none => simp [omap, hfx, hrest] at h
      | some cs =>
        simp only [omap, hfx, hrest, Option.some.injEq] at h
        subst h
        obtain ⟨hlen, hptr⟩ := ih cs hrest
        refine ⟨by simp [hlen], ?_⟩
        intro i a ha
        cases i with
        | zero =>
          simp only [List.get?_cons_zero, Option.some.injEq] at ha
          subst ha
          exact ⟨b, rfl, hfx⟩
        | succ j =>
          simp only [List.get?_cons_succ] at ha ⊢
          exact hptr j a ha

theorem omap_mem {α β : Type} (f : α → Option β) :
    ∀ (l : List α) (bs : List β), omap f l = some bs →
      ∀ (a : α), a ∈ l → ∃ b, b ∈ bs ∧ f a = some b := by
  intro l
  induction l with
  | nil => intro bs _ a ha; simp at ha
  | cons x xs ih =>
    intro bs h a ha
    cases hfx : f x with
    | none => simp [omap, hfx] at h
    | some b =>
      cases hrest : omap f xs with
      | none => simp [omap, hfx, hrest] at h
      | some cs =>
        simp only [omap, hfx, hrest, Option.some.injEq] at h
        subst h
        rcases List.mem_cons.mp ha with rfl | hmem
        · exact ⟨b, List.mem_cons_self _ _, hfx⟩
        · obtain ⟨b2, hb2, hfb2⟩ := ih cs hrest a hmem
          exact ⟨b2, List.mem_cons_of_mem _ hb2, hfb2⟩

theorem omap_mem_rev {α β : Type} (f : α → Option β) :
    ∀ (l : List α) (bs : List β), omap f l = some bs →
      ∀ (b : β), b ∈ bs → ∃ a, a ∈ l ∧ f a = some b := by
  intro l
  induction l with
  | nil =>
    intro bs h b hb
    simp only [omap, Option.some.injEq] at h
    subst h
    simp at hb
  | cons x xs ih =>
    intro bs h b hb
    cases hfx : f x with
    | none => simp [omap, hfx] at h
    | some c =>
      cases hrest : omap f xs with
      | none => simp [omap, hfx, hrest] at h
      | some cs =>
        simp only [omap, hfx, hrest, Option.some.injEq] at h
        subst h
        rcases List.mem_cons.mp hb with rfl | hmem
        · exact ⟨x, List.mem_cons_self _ _, hfx⟩
        · obtain ⟨a, ha, hfa⟩ := ih cs hrest b hmem
          exact ⟨a, List.mem_cons_of_mem _ ha, hfa⟩

theorem omap_none {α β : Type} (f : α → Option β) (a : α) :
    ∀ (l : List α), a ∈ l → f a = none → omap f l = none := by
  intro l
  induction l with
  | nil => intro ha; simp at ha
  | cons x xs ih =>
    intro ha hfa
    rcases List.mem_cons.mp ha with rfl | hmem
    · simp [omap, hfa]
    · cases hfx : f x with
      | none => simp [omap, hfx]
      | some b => simp [omap, hfx, ih hmem hfa]

theorem omap_map {α β γ : Type} (f : α → Option β) (g : α → Option γ)
    (p : β → γ) (hfg : ∀ a b, f a = some b → g a = some (p b)) :
    ∀ (l : List α) (bs : List β), omap f l = some bs →
      omap g l = some (bs.map p) := by
  intro l
  induction l with
  | nil =>
    intro bs h
    simp only [omap, Option.some.injEq] at h
    subst h
    rfl
  | cons x xs ih =>
    intro bs h
    cases hfx : f x with
    | none => simp [omap, hfx] at h
    | some b =>
      cases hrest : omap f xs with
      | none => simp [omap, hfx, hrest] at h
      | some cs =>
        simp only [omap, hfx, hrest, Option.some.injEq] at h
        subst h
        simp [omap, hfg x b hfx, ih cs hrest]

/- Generic lemmas about association-list lookup. -/

theorem lookup_append {α β : Type} [BEq α] (l1 l2 : List (α × β)) (k : α) :
    (l1 ++ l2).lookup k = ((l1.lookup k).orElse (fun _ => l2.lookup k)) := by
  induction l1 with
  | nil =>
    rw [List.nil_append]
    cases l2.lookup k <;> rfl
  | cons p t ih =>
    rcases p with ⟨a, b⟩
    cases hbeq : k == a with
    | true => simp [List.lookup, hbeq]
    | false => simp [List.lookup, hbeq, ih]

theorem lookup_none_of_keys {α β : Type} [BEq α] [LawfulBEq α] (k : α) :
    ∀ (l : List (α × β)), k ∉ l.map Prod.fst → l.lookup k = none := by
  intro l
  induction l with
  | nil => intro _; rfl
  | cons p t ih =>
    rcases p with ⟨a, b⟩
    intro hk
    simp only [List.map_cons, List.mem_cons] at hk
    push_neg at hk
    have hbeq : (k == a) = false := by
      simp only [beq_eq_false_iff_ne, ne_eq]
      exact hk.1
    simp [List.lookup, hbeq, ih hk.2]

theorem lookup_map_pair {β : Type} (g : String → β) :
    ∀ (L : List String) (lab : String), lab ∈ L →
      (L.map (fun t => (t, g t))).lookup lab = some (g lab) := by
  intro L
  induction L with
  | nil => intro lab h; simp at h
  | cons x xs ih =>
    intro lab h
    rcases List.mem_cons.mp h with rfl | hmem
    · simp [List.lookup]
    · cases hbeq : lab == x with
      | true =>
        have : lab = x := by simpa using hbeq
        subst this
        simp [List.lookup]
      | false => simp [List.lookup, hbeq, ih lab hmem]

theorem lookup_reverse_single :
    ∀ (es : List (String × ℚ)) (lab : String) (v : ℚ),
      (es.map Prod.fst).count lab = 1 → (lab, v) ∈ es →
      es.reverse.lookup lab = some v := by
  intro es
  induction es with
  | nil => intro lab v _ hmem; simp at hmem
  | cons p t ih =>
    rcases p with ⟨a, b⟩
    intro lab v hcount hmem
    by_cases hak : a = lab
    · subst hak
      have hct : (t.map Prod.fst).count a = 0 := by
        simp only [List.map_cons, List.count_cons, beq_self_eq_true,
          if_true] at hcount
        omega
      have hna : a ∉ t.map Prod.fst := List.count_eq_zero.mp hct
      have hv : v = b := by
        rcases List.mem_cons.mp hmem with heq | hmemt
        · exact congrArg Prod.snd heq
        · exact absurd (List.mem_map.mpr ⟨(a, v), hmemt, rfl⟩) hna
      subst hv
      have hkeys : a ∉ t.reverse.map Prod.fst := by
        rw [List.map_reverse]
        simpa using hna
      rw [List.reverse_cons, lookup_append, lookup_none_of_keys a t.reverse hkeys]
      simp [List.lookup]
    · have hcount2 : (t.map Prod.fst).count lab = 1 := by
        have hbeq : (a == lab) = false := by
          simp only [beq_eq_false_iff_ne, ne_eq]; exact hak
        simpa [List.count_cons, hbeq] using hcount
      have hmemt : (lab, v) ∈ t := by
        rcases List.mem_cons.mp hmem with heq | hmemt
        · exact absurd (congrArg Prod.fst heq).symm hak
        · exact hmemt
      have hrec := ih lab v hcount2 hmemt
      rw [List.reverse_cons, lookup_append, hrec]
      rfl

/- Generic lemmas about lookup in a zipped index. -/

theorem lookup_zip_some :
    ∀ (index : List Int) (vals : List ℚ), index.Nodup →
      ∀ (i : Nat) (d : Int) (v : ℚ),
        index.get? i = some d → vals.get? i = some v →
        (index.zip vals).lookup d = some v := by
  intro index
  induction index with
  | nil => intro vals _ i d v hd _; simp at hd
  | cons x xs ih =>
    intro vals hnd i d v hd hv
    cases vals with
    | nil => cases i <;> simp at hv
    | cons y ys =>
      cases i with
      | zero =>
        simp only [List.get?_cons_zero, Option.some.injEq] at hd hv
        subst hd; subst hv
        simp [List.zip_cons_cons, List.lookup]
      | succ j =>
        simp only [List.get?_cons_succ] at hd hv
        have hmem : d ∈ xs := List.get?_mem hd
        have hxd : ¬ (x = d) := fun hcontra =>
          (List.nodup_cons.mp hnd).1 (hcontra ▸ hmem)
        have hbeq : (d == x) = false := by
          simp only [beq_eq_false_iff_ne, ne_eq]
          exact fun hcontra => hxd hcontra.symm
        simp only [List.zip_cons_cons, List.lookup, hbeq]
        exact ih ys (List.nodup_cons.mp hnd).2 j d v hd hv

theorem lookup_zip_none :
    ∀ (index : List Int) (vals : List ℚ) (d : Int), d ∉ index →
      (index.zip vals).lookup d = none := by
  intro index
  induction index with
  | nil => intro vals d _; rfl
  | cons x xs ih =>
    intro vals d hd
    cases vals with
    | nil => rfl
    | cons y ys =>
      have hxd : ¬ (d = x) := fun hcontra => hd (hcontra ▸ List.mem_cons_self x xs)
      have hbeq : (d == x) = false := by
        simp only [beq_eq_false_iff_ne, ne_eq]; exact hxd
      have hdx : d ∉ xs := fun hcontra => hd (List.mem_cons_of_mem _ hcontra)
      simp only [List.zip_cons_cons, List.lookup, hbeq]
      exact ih ys d hdx

/- Generic lemmas about first-occurrence deduplication. -/

theorem mem_dedupGo (x : String) :
    ∀ (l acc : List String), x ∈ dedupGo acc l ↔ x ∈ acc ∨ x ∈ l := by
  intro l
  induction l with
  | nil => intro acc; simp [dedupGo]
  | cons y ys ih =>
    intro acc
    by_cases hy : y ∈ acc
    · rw [dedupGo, if_pos hy, ih acc]
      constructor
      · rintro (h | h)
        · exact Or.inl h
        · exact Or.inr (List.mem_cons_of_mem _ h)
      · rintro (h | h)
        · exact Or.inl h
        · rcases List.mem_cons.mp h with rfl | h2
          · exact Or.inl hy
          · exact Or.inr h2
    · rw [dedupGo, if_neg hy, ih (acc ++ [y])]
      simp only [List.mem_append, List.mem_singleton, List.mem_cons]
      tauto

theorem dedupGo_of_subset :
    ∀ (l acc : List String), (∀ x ∈ l, x ∈ acc) → dedupGo acc l = acc := by
  intro l
  induction l with
  | nil => intro acc _; rfl
  | cons y ys ih =>
    intro acc hsub
    rw [dedupGo, if_pos (hsub y (List.mem_cons_self _ _))]
    exact ih acc (fun x hx => hsub x (List.mem_cons_of_mem _ hx))

theorem dedupGo_append :
    ∀ (l1 l2 acc : List String),
      dedupGo acc (l1 ++ l2) = dedupGo (dedupGo acc l1) l2 := by
  intro l1
  induction l1 with
  | nil => intro l2 acc; rfl
  | cons y ys ih =>
    intro l2 acc
    by_cases hy : y ∈ acc
    · rw [List.cons_append, dedupGo, if_pos hy, ih, dedupGo, if_pos hy]
    · rw [List.cons_append, dedupGo, if_neg hy, ih, dedupGo, if_neg hy]

theorem dedupGo_nodup :
    ∀ (L acc : List String), L.Nodup → (∀ x ∈ L, x ∉ acc) →
      dedupGo acc L = acc ++ L := by
  intro L
  induction L with
  | nil => intro acc _ _; simp [dedupGo]
  | cons y ys ih =>
    intro acc hnd hdisj
    rw [dedupGo, if_neg (hdisj y (List.mem_cons_self _ _))]
    rw [ih (acc ++ [y]) (List.nodup_cons.mp hnd).2]
    · simp
    · intro x hx
      simp only [List.mem_append, List.mem_singleton]
      push_neg
      refine ⟨hdisj x (List.mem_cons_of_mem _ hx), ?_⟩
      intro hcontra
      exact (List.nodup_cons.mp hnd).1 (hcontra ▸ hx)

theorem dedupFirst_flatten_const :
    ∀ (chunks : List (List String)) (L : List String), L.Nodup →
      chunks ≠ [] → (∀ c ∈ chunks, c = L) →
      dedupFirst chunks.flatten = L := by
  intro chunks L hnd hne hall
  cases chunks with
  | nil => exact absurd rfl hne
  | cons c rest =>
    have hc : c = L := hall c (List.mem_cons_self _ _)
    subst hc
    rw [List.flatten_cons, dedupFirst, dedupGo_append]
    rw [dedupGo_nodup c [] hnd (by intro x _; simp)]
    rw [List.nil_append]
    apply dedupGo_of_subset
    intro x hx
    obtain ⟨c2, hc2, hxc2⟩ := List.mem_flatten.mp hx
    rwa [hall c2 (List.mem_cons_of_mem _ hc2)] at hxc2

/- Lemmas about the embedded return computations. -/

theorem dayCalc_eq (vals : List ℚ) (d : Nat) (pl pd : ℚ)
    (hlen : d < vals.length)
    (hpl : vals.get? (vals.length - 1) = some pl)
    (hpd : vals.get? (vals.length - (d + 1)) = some pd) :
    dayCalc vals d = some ((pl - pd) / pd * 100) := by
  have h1 : ilocNeg vals 1 = some pl := by
    unfold ilocNeg
    rw [if_pos ⟨le_refl 1, by omega⟩]
    exact hpl
  have h2 : ilocNeg vals (d + 1) = some pd := by
    unfold ilocNeg
    rw [if_pos ⟨by omega, by omega⟩]
    exact hpd
  unfold dayCalc
  rw [h1, h2]

theorem dayCalc_none (vals : List ℚ) (d : Nat) (h : vals.length ≤ d) :
    dayCalc vals d = none := by
  have h2 : ilocNeg vals (d + 1) = none := by
    unfold ilocNeg
    rw [if_neg (by omega)]
  unfold dayCalc
  rw [h2]
  cases ilocNeg vals 1 <;> rfl

theorem calOr_present (index : List Int) (vals : List ℚ)
    (endDate target : Int) (fb i : Nat) (pe ps : ℚ)
    (hnd : index.Nodup)
    (hlast : index.get? (index.length - 1) = some endDate)
    (hpe : vals.get? (index.length - 1) = some pe)
    (hi : index.get? i = some target)
    (hps : vals.get? i = some ps) :
    calOr index vals endDate target fb = some ((pe - ps) / ps * 100) := by
  have he : locAt index vals endDate = some pe :=
    lookup_zip_some index vals hnd _ _ _ hlast hpe
  have ht : locAt index vals target = some ps :=
    lookup_zip_some index vals hnd _ _ _ hi hps
  unfold calOr calCalc
  rw [he, ht]

theorem calOr_absent (index : List Int) (vals : List ℚ)
    (endDate target : Int) (fb : Nat) (hnm : target ∉ index) :
    calOr index vals endDate target fb = dayCalc vals fb := by
  have ht : locAt index vals target = none := lookup_zip_none index vals target hnm
  have hc : calCalc index vals endDate target = none := by
    unfold calCalc
    rw [ht]
    cases locAt index vals endDate <;> rfl
  unfold calOr
  rw [hc]

theorem entry_label (index : List Int) (endDate : Int)
    (labels : List (Nat × String)) (mo : Int → Nat → Int) (vals : List ℚ)
    (t : Tenor) (e : String × ℚ)
    (h : entryCalc index endDate labels mo vals t = some e) :
    tenorLabel labels t = some e.1 := by
  cases t with
  | day d =>
    cases h1 : dayCalc vals d with
    | none => simp [entryCalc, h1] at h
    | some v =>
      cases h2 : labels.lookup d with
      | none => simp [entryCalc, h1, h2] at h
      | some lab =>
        simp only [entryCalc, h1, h2, Option.some.injEq] at h
        subst h
        exact h2
  | week w wd =>
    cases h1 : weekRet index vals endDate w wd with
    | none => simp [entryCalc, h1] at h
    | some v =>
      cases h2 : labels.lookup wd with
      | none => simp [entryCalc, h1, h2] at h
      | some lab =>
        simp only [entryCalc, h1, h2, Option.some.injEq] at h
        subst h
        exact h2
  | month m md =>
    cases h1 : monthRet index vals endDate mo m md with
    | none => simp [entryCalc, h1] at h
    | some v =>
      cases h2 : labels.lookup md with
      | none => simp [entryCalc, h1, h2] at h
      | some lab =>
        simp only [entryCalc, h1, h2, Option.some.injEq] at h
        subst h
        exact h2

theorem colReturns_labels (index : List Int) (endDate : Int)
    (tm : TenorMappings) (mo : Int → Nat → Int) (vals : List ℚ)
    (es : List (String × ℚ))
    (h : colReturns index endDate tm mo vals = some es) :
    expectedLabels tm = some (es.map Prod.fst) :=
  omap_map _ _ Prod.fst
    (fun t e he => entry_label index endDate tm.labels mo vals t e he)
    (tenorSeq tm) es h

theorem get_returns_shape (h : History) (tm : TenorMappings)
    (mo : Int → Nat → Int) (rd : ReturnsDict)
    (hrun : get_returns h tm mo = some rd) :
    ∃ (endDate : Int) (rows : List (String × List (String × ℚ))),
      h.index.getLast? = some endDate ∧
      omap (fun c => (colReturns h.index endDate tm mo c.2).map
        (fun es => (c.1, es))) h.cols = some rows ∧
      rd.labels = dedupFirst ((rows.map (fun r => r.2.map Prod.fst)).flatten) ∧
      rd.data = rows.map (fun r =>
        { label := r.1,
          values := (dedupFirst ((rows.map (fun r2 => r2.2.map Prod.fst)).flatten)).map
            (fun t => (t, lookupLast r.2 t)) }) := by
  unfold get_returns at hrun
  split at hrun
  · exact absurd hrun (by simp)
  · next endDate heq =>
    split at hrun
    · exact absurd hrun (by simp)
    · next rows hrows =>
      simp only [Option.some.injEq] at hrun
      subst hrun
      exact ⟨endDate, rows, heq, hrows, rfl, rfl⟩

theorem rows_labels_eq (index : List Int) (endDate : Int)
    (tm : TenorMappings) (mo : Int → Nat → Int)
    (cols : List (String × List ℚ))
    (rows : List (String × List (String × ℚ))) (L : List String)
    (hom : omap (fun c => (colReturns index endDate tm mo c.2).map
      (fun es => (c.1, es))) cols = some rows)
    (hL : expectedLabels tm = some L) :
    ∀ r ∈ rows, r.2.map Prod.fst = L := by
  intro r hr
  obtain ⟨c, _, hfc⟩ := omap_mem_rev _ cols rows hom r hr
  cases hcr : colReturns index endDate tm mo c.2 with
  | none => rw [hcr] at hfc; simp at hfc
  | some es =>
    rw [hcr] at hfc
    simp only [Option.map_some', Option.some.injEq] at hfc
    have hlab := colReturns_labels index endDate tm mo c.2 es hcr
    rw [hL] at hlab
    have : es.map Prod.fst = L := by
      injection hlab with h2
      exact h2.symm
    rw [← hfc]
    exact this

/- Lemmas about Python dict update as used by _init_params. -/

theorem lookup_map_replace {α : Type} (k k2 : String) (v : α) :
    ∀ (d : List (String × α)),
      (d.map (fun p => if p.1 = k then (k, v) else p)).lookup k2
        = if k2 = k then ((d.lookup k).map (fun _ => v)) else d.lookup k2 := by
  intro d
  induction d with
  | nil => by_cases hk : k2 = k <;> simp [List.lookup, hk]
  | cons p t ih =>
    rcases p with ⟨a, b⟩
    by_cases hak : a = k
    · subst hak
      rw [List.map_cons]
      have hhead : (if (a, b).1 = a then (a, v) else (a, b)) = (a, v) := by simp
      rw [hhead]
      by_cases hk2 : k2 = a
      · subst hk2
        simp [List.lookup]
      · have hbeq : (k2 == a) = false := by
          simp only [beq_eq_false_iff_ne, ne_eq]; exact hk2
        simp [List.lookup, hbeq, hk2, ih]
    · rw [List.map_cons]
      have hhead : (if (a, b).1 = k then (k, v) else (a, b)) = (a, b) := by
        simp [hak]
      rw [hhead]
      by_cases hk2a : k2 = a
      · subst hk2a
        have hbeqk : ¬ (k2 = k) := hak
        simp [List.lookup, hak, hbeqk]
      · have hbeq : (k2 == a) = false := by
          simp only [beq_eq_false_iff_ne, ne_eq]; exact hk2a
        have hbeqka : (k == a) = false := by
          simp only [beq_eq_false_iff_ne, ne_eq]
          exact fun hcontra => hak hcontra.symm
        by_cases hk2 : k2 = k
        · subst hk2
          simp [List.lookup, hbeq, ih, hbeqka]
        · simp [List.lookup, hbeq, ih, hk2, hbeqka]

theorem dictSet_lookup {α : Type} (d : List (String × α)) (k k2 : String) (v : α) :
    (dictSet d k v).lookup k2 = if k2 = k then some v else d.lookup k2 := by
  by_cases hpres : (d.lookup k).isSome
  · unfold dictSet
    rw [if_pos hpres, lookup_map_replace k k2 v d]
    by_cases hk : k2 = k
    · rw [if_pos hk, if_pos hk]
      obtain ⟨w, hw⟩ := Option.isSome_iff_exists.mp hpres
      rw [hw]
      rfl
    · rw [if_neg hk, if_neg hk]
  · unfold dictSet
    rw [if_neg hpres, lookup_append]
    by_cases hk : k2 = k
    · subst hk
      have hnone : d.lookup k2 = none := by
        cases hd : d.lookup k2
        · rfl
        · exact absurd (by rw [hd]; rfl) hpres
      rw [hnone, if_pos rfl]
      simp [List.lookup]
    · rw [if_neg hk]
      have hbeq : (k2 == k) = false := by
        simp only [beq_eq_false_iff_ne, ne_eq]; exact hk
      have hsing : ([(k, v)] : List (String × α)).lookup k2 = none := by
        simp [List.lookup, hbeq]
      rw [hsing]
      cases d.lookup k2 <;> rfl

theorem init_params_lookup {α : Type} :
    ∀ (inputs defaults : List (String × α)) (k : String),
      (init_params defaults inputs).lookup k
        = ((inputs.reverse).lookup k).orElse (fun _ => defaults.lookup k) := by
  intro inputs
  induction inputs with
  | nil =>
    intro defaults k
    show (defaults.lookup k)
      = ((List.reverse []).lookup k).orElse (fun _ => defaults.lookup k)
    cases defaults.lookup k <;> rfl
  | cons kv t ih =>
    intro defaults k
    rcases kv with ⟨k0, v0⟩
    have hstep : init_params defaults ((k0, v0) :: t)
        = init_params (dictSet defaults k0 v0) t := rfl
    rw [hstep, ih (dictSet defaults k0 v0) k, List.reverse_cons, lookup_append,
      dictSet_lookup defaults k0 k v0]
    cases ha : (t.reverse).lookup k with
    | some w => rfl
    | none =>
      by_cases hk : k = k0
      · subst hk
        simp [List.lookup]
      · have hbeq : (k == k0) = false := by
          simp only [beq_eq_false_iff_ne, ne_eq]; exact hk
        simp only [if_neg hk, List.lookup, hbeq]
        cases defaults.lookup k <;> rfl

/- Claim theorems. -/

/-- Claim C2: for a requested week-count w mapped to day-count key wd (and
analogously a month-count m mapped to md), if the calendar date obtained by
offsetting the last index date is present in the history index, the week
(month) return is computed from the price at that exact calendar date and
the last price; if that date is absent, the computation does not raise but
falls back to the wd (md) trading-day index-offset return, provided the
column has more than wd (md) rows. -/
theorem c2_calendar_offset_with_fallback
    (index : List Int) (vals : List ℚ) (endDate : Int) (mo : Int → Nat → Int)
    (w wd m md i : Nat) (ps pe pl pd : ℚ) :
    (index.Nodup →
      index.get? (index.length - 1) = some endDate →
      vals.get? (index.length - 1) = some pe →
      index.get? i = some (endDate - 7 * (w : Int)) →
      vals.get? i = some ps →
      weekRet index vals endDate w wd = some ((pe - ps) / ps * 100)) ∧
    ((endDate - 7 * (w : Int)) ∉ index →
      wd < vals.length →
      vals.get? (vals.length - 1) = some pl →
      vals.get? (vals.length - (wd + 1)) = some pd →
      weekRet index vals endDate w wd = some ((pl - pd) / pd * 100)) ∧
    (index.Nodup →
      index.get? (index.length - 1) = some endDate →
      vals.get? (index.length - 1) = some pe →
      index.get? i = some (mo endDate m) →
      vals.get? i = some ps →
      monthRet index vals endDate mo m md = some ((pe - ps) / ps * 100)) ∧
    ((mo endDate m) ∉ index →
      md < vals.length →
      vals.get? (vals.length - 1) = some pl →
      vals.get? (vals.length - (md + 1)) = some pd →
      monthRet index vals endDate mo m md = some ((pl - pd) / pd * 100)) := by
  refine ⟨?_, ?_, ?_, ?_⟩
  · intro hnd hlast hpe hi hps
    unfold weekRet
    exact calOr_present index vals endDate _ wd i pe ps hnd hlast hpe hi hps
  · intro hnm hwd hpl hpd
    unfold weekRet
    rw [calOr_absent index vals endDate _ wd hnm]
    exact dayCalc_eq vals wd pl pd hwd hpl hpd
  · intro hnd hlast hpe hi hps
    unfold monthRet
    exact calOr_present index vals endDate _ md i pe ps hnd hlast hpe hi hps
  · intro hnm hmd hpl hpd
    unfold monthRet
    rw [calOr_absent index vals endDate _ md hnm]
    exact dayCalc_eq vals md pl pd hmd hpl hpd

/- Witness for C2 at concrete inputs exercising all four branches: the
calendar date present (week and month) and absent (week and month). -/
theorem c2_calendar_offset_with_fallback_witness :
    weekRet [0, 2, 4, 7, 9, 11, 14] [1, 2, 3, 4, 5, 6, 8] 14 1 5
      = some (((8 : ℚ) - 4) / 4 * 100) ∧
    weekRet [0, 2, 4, 6, 9, 11, 14] [1, 2, 3, 4, 5, 6, 8] 14 1 5
      = some (((8 : ℚ) - 2) / 2 * 100) ∧
    monthRet [0, 2, 4, 7, 9, 11, 14] [1, 2, 3, 4, 5, 6, 8] 14
        (fun d _ => d - 14) 1 5
      = some (((8 : ℚ) - 1) / 1 * 100) ∧
    monthRet [0, 2, 4, 6, 9, 11, 14] [1, 2, 3, 4, 5, 6, 8] 14
        (fun d _ => d - 1) 1 2
      = some (((8 : ℚ) - 5) / 5 * 100) := by
  refine ⟨?_, ?_, ?_, ?_⟩
  · exact (c2_calendar_offset_with_fallback [0, 2, 4, 7, 9, 11, 14]
      [1, 2, 3, 4, 5, 6, 8] 14 (fun d _ => d) 1 5 0 0 3 4 8 0 0).1
      (by decide) (by decide) (by decide) (by decide) (by decide)
  · exact (c2_calendar_offset_with_fallback [0, 2, 4, 6, 9, 11, 14]
      [1, 2, 3, 4, 5, 6, 8] 14 (fun d _ => d) 1 5 0 0 0 0 0 8 2).2.1
      (by decide) (by decide) (by decide) (by decide)
  · exact (c2_calendar_offset_with_fallback [0, 2, 4, 7, 9, 11, 14]
      [1, 2, 3, 4, 5, 6, 8] 14 (fun d _ => d - 14) 1 5 1 5 0 1 8 0 0).2.2.1
      (by decide) (by decide) (by decide) (by decide) (by decide)
  · exact (c2_calendar_offset_with_fallback [0, 2, 4, 6, 9, 11, 14]
      [1, 2, 3, 4, 5, 6, 8] 14 (fun d _ => d - 1) 1 5 1 2 0 0 0 8 5).2.2.2
      (by decide) (by decide) (by decide) (by decide)

/-- Claim C3: when the history has at most d rows for a requested
day-count d, the index-offset lookup at position minus d minus one runs
past the start of history and get_returns raises (returns none) instead
of producing a result. -/
theorem c3_insufficient_history_raises
    (h : History) (tm : TenorMappings) (mo : Int → Nat → Int)
    (name : String) (vals : List ℚ) (d : Nat)
    (hmem : (name, vals) ∈ h.cols)
    (hlen : vals.length = h.index.length)
    (hd : d ∈ tm.days)
    (hge : h.index.length ≤ d) :
    get_returns h tm mo = none := by
  cases hl : h.index.getLast? with
  | none => simp only [get_returns, hl]
  | some endDate =>
    have hday : dayCalc vals d = none := dayCalc_none vals d (by omega)
    have hentry : entryCalc h.index endDate tm.labels mo vals (Tenor.day d)
        = none := by
      simp only [entryCalc, hday]
    have hmemT : Tenor.day d ∈ tenorSeq tm := by
      unfold tenorSeq
      exact List.mem_append.mpr (Or.inl (List.mem_append.mpr
        (Or.inl (List.mem_map.mpr ⟨d, hd, rfl⟩))))
    have hcol : colReturns h.index endDate tm mo vals = none :=
      omap_none _ _ (tenorSeq tm) hmemT hentry
    have hrow : (fun (c : String × List ℚ) =>
        (colReturns h.index endDate tm mo c.2).map (fun es => (c.1, es)))
        (name, vals) = none := by
      simp [hcol]
    have hrows : omap (fun (c : String × List ℚ) =>
        (colReturns h.index endDate tm mo c.2).map (fun es => (c.1, es)))
        h.cols = none :=
      omap_none _ _ h.cols hmem hrow
    simp only [get_returns, hl, hrows]

/- Witness for C3: a two-row history with a requested day-count of five. -/
theorem c3_insufficient_history_raises_witness :
    get_returns { index := [0, 1], cols := [("A", [1, 2])] }
      { days := [5], weeks := [], months := [], labels := [(5, "W")] }
      (fun d _ => d) = none :=
  c3_insufficient_history_raises
    { index := [0, 1], cols := [("A", [1, 2])] }
    { days := [5], weeks := [], months := [], labels := [(5, "W")] }
    (fun d _ => d) ("A") [1, 2] 5 (by decide) (by decide) (by decide) (by decide)

theorem dropNa_complete (t : PriceTable) : noMissing (dropNaRows t) = true := by
  simp only [noMissing, dropNaRows]
  rw [List.all_eq_true]
  intro c hc
  rw [List.all_eq_true]
  intro cell hcell
  simp only [List.mem_map] at hc
  obtain ⟨c0, hc0, hceq⟩ := hc
  subst hceq
  obtain ⟨i, hi, hgi⟩ := List.mem_filterMap.mp hcell
  have hrc : rowComplete t.cols i = true := (List.mem_filter.mp hi).2
  unfold rowComplete at hrc
  rw [List.all_eq_true] at hrc
  have hres := hrc c0 hc0
  rw [hgi] at hres
  simpa using hres

/-- Claim C5: get_history forward-fills gaps first and then drops every
row still containing a missing value, so the returned table holds no
missing values for any list of tickers. -/
theorem c5_ffill_then_trim (tickers : List (String × List (Int × ℚ))) :
    noMissing (get_history tickers) = true ∧
    get_history tickers = dropNaRows (ffillTable (buildTable tickers)) :=
  ⟨dropNa_complete (ffillTable (buildTable tickers)), rfl⟩

/-- Claim C6: trend_calc derives the indicator tables only from the raw
price tables and the parameters, derives the barometer only from those
just-computed indicator tables (with the parameters and sector mappings),
and leaves the raw price tables unchanged in the tables dictionary. -/
theorem c6_one_directional_flow {π ρ τ σ β : Type}
    (generate_fields : π → ρ → τ)
    (generate_trend_strength : π → τ → σ → β)
    (params : π) (tables : TrendTables ρ τ β) (mappings : σ) :
    (trend_calc generate_fields generate_trend_strength params tables
      mappings).raw_ticker_dict = tables.raw_ticker_dict ∧
    (trend_calc generate_fields generate_trend_strength params tables
      mappings).ticker_dict
        = some (generate_fields params tables.raw_ticker_dict) ∧
    (trend_calc generate_fields generate_trend_strength params tables
      mappings).barometer
        = some (generate_trend_strength params
            (generate_fields params tables.raw_ticker_dict) mappings) ∧
    (∀ tables2 : TrendTables ρ τ β,
      generate_fields params tables2.raw_ticker_dict
          = generate_fields params tables.raw_ticker_dict →
      (trend_calc generate_fields generate_trend_strength params tables2
        mappings).barometer
        = (trend_calc generate_fields generate_trend_strength params tables
            mappings).barometer) := by
  refine ⟨rfl, rfl, rfl, ?_⟩
  intro tables2 h2
  simp only [trend_calc]
  rw [h2]

/- Witness for C6 at concrete instantiations of the abstract generators. -/
theorem c6_one_directional_flow_witness :
    (trend_calc (fun (_ : Nat) (r : Nat) => r) (fun (_ : Nat) (t : Nat) (_ : Nat) => t)
      0 { raw_ticker_dict := 2, ticker_dict := none, barometer := none }
      0).raw_ticker_dict = 2 ∧
    (trend_calc (fun (_ : Nat) (r : Nat) => r) (fun (_ : Nat) (t : Nat) (_ : Nat) => t)
      0 { raw_ticker_dict := 2, ticker_dict := some 5, barometer := some 7 }
      0).barometer
      = (trend_calc (fun (_ : Nat) (r : Nat) => r) (fun (_ : Nat) (t : Nat) (_ : Nat) => t)
        0 { raw_ticker_dict := 2, ticker_dict := none, barometer := none }
        0).barometer :=
  ⟨(c6_one_directional_flow (fun _ r => r) (fun _ t _ => t) 0
      { raw_ticker_dict := 2, ticker_dict := none, barometer := none } 0).1,
   (c6_one_directional_flow (fun _ r => r) (fun _ t _ => t) 0
      { raw_ticker_dict := 2, ticker_dict := none, barometer := none } 0).2.2.2
    { raw_ticker_dict := 2, ticker_dict := some 5, barometer := some 7 } rfl⟩

/-- Claim C7: parameter construction copies the default dictionary and
overrides it key by key with the supplied inputs, so a lookup in the
result takes the last supplied value for the key when one exists and the
default otherwise, while the global default dictionary is returned
unchanged (the deep copy is value semantics here). -/
theorem c7_defaults_overridden {α : Type}
    (globals inputs : List (String × α)) (k : String) :
    (init_params_run globals inputs).1 = globals ∧
    ((init_params_run globals inputs).2.lookup k
      = ((inputs.reverse).lookup k).orElse (fun _ => globals.lookup k)) :=
  ⟨rfl, init_params_lookup inputs globals k⟩

/-- Claim C8: when the source parameter of the constructed params
dictionary is neither norgate nor yahoo, the TrendStrength constructor
fails with an error whatever the data preparations and downstream
pipeline are, so no price data is prepared and the pipeline never runs
to completion. -/
theorem c8_unknown_source_fails {τ μ ω : Type}
    (defaults inputs : List (String × String)) (mappings : μ) (s : String)
    (hs : (init_params defaults inputs).lookup ("source") = some s)
    (hn : s ≠ ("norgate")) (hy : s ≠ ("yahoo")) :
    ∀ (prep_norgate prep_yahoo :
        List (String × String) → μ → List (String × String) × τ × μ)
      (pipeline : List (String × String) → τ → μ → ω),
      ts_construct defaults inputs prep_norgate prep_yahoo pipeline mappings
        = Except.error ("source not recognised: tables never assigned") := by
  intro prepN prepY pipe
  simp only [ts_construct, hs, if_neg hn, if_neg hy]

/- Witness for C8: defaults carry norgate, the input overrides the source
with an unrecognised provider. -/
theorem c8_unknown_source_fails_witness :
    ts_construct [("source", "norgate")] [("source", "quandl")]
      (fun p (m : Nat) => (p, (0 : Nat), m)) (fun p m => (p, 0, m))
      (fun _ _ _ => (0 : Nat)) 0
      = Except.error ("source not recognised: tables never assigned") :=
  c8_unknown_source_fails [("source", "norgate")] [("source", "quandl")]
    0 ("quandl") (by decide) (by decide) (by decide)
    (fun p m => (p, 0, m)) (fun p m => (p, 0, m)) (fun _ _ _ => 0)

/-- Claim C9: get_returns has no side effect on its arguments: running it
leaves the history and the tenor mappings, including the days, weeks,
months and labels components, unchanged, and only the output component of
the state is written. -/
theorem c9_arguments_unchanged (mo : Int → Nat → Int) (s : RetState) :
    (get_returns_run mo s).history = s.history ∧
    (get_returns_run mo s).tenor_mappings = s.tenor_mappings ∧
    (get_returns_run mo s).tenor_mappings.days = s.tenor_mappings.days ∧
    (get_returns_run mo s).tenor_mappings.weeks = s.tenor_mappings.weeks ∧
    (get_returns_run mo s).tenor_mappings.months = s.tenor_mappings.months ∧
    (get_returns_run mo s).tenor_mappings.labels = s.tenor_mappings.labels :=
  ⟨rfl, rfl, rfl, rfl, rfl, rfl⟩

/-- Claim C10: every ticker returned by get_tickers has a last-four
character slice different from _CCB, the returned list is the
order-preserving filter of the symbols of the selected databases (the
first four plus the last), and tickers ending in _CCB are the only ones
removed. -/
theorem c10_ccb_filter (alldbs : List String) (syms : String → List String)
    (allT ts : List String)
    (hall : selected_tickers alldbs syms = some allT)
    (hget : get_tickers alldbs syms = some ts) :
    ts = allT.filter (fun t => lastFour t != ("_CCB")) ∧
    ts.Sublist allT ∧
    (∀ t ∈ ts, lastFour t ≠ ("_CCB")) ∧
    (∀ t ∈ allT, lastFour t ≠ ("_CCB") → t ∈ ts) := by
  cases hl : alldbs.getLast? with
  | none => rw [selected_tickers, hl] at hall; exact absurd hall (by simp)
  | some lastDb =>
    rw [selected_tickers, hl] at hall
    simp only [Option.map_some', Option.some.injEq] at hall
    simp only [get_tickers, hl, Option.some.injEq] at hget
    subst hall
    subst hget
    refine ⟨rfl, List.filter_sublist _, ?_, ?_⟩
    · intro t ht
      have hbne := (List.mem_filter.mp ht).2
      simpa using hbne
    · intro t ht hne
      exact List.mem_filter.mpr ⟨ht, by simpa using hne⟩

/- Witness for C10: two databases, one symbol list carrying a _CCB entry. -/
theorem c10_ccb_filter_witness :
    ((["Y", "Z", "Z"] : List String).Sublist ["X_CCB", "Y", "Z", "Z"]) ∧
    lastFour ("Y") ≠ ("_CCB") := by
  have hmain := c10_ccb_filter ["a", "b"]
    (fun n => if n = ("a") then ["X_CCB", "Y"] else ["Z"])
    ["X_CCB", "Y", "Z", "Z"] ["Y", "Z", "Z"] (by decide) (by decide)
  exact ⟨hmain.2.1, hmain.2.2.1 ("Y") (by decide)⟩

/-- Claim C1 (amended): for a history column with more than d rows and a
requested day-count d whose label is written by exactly one tenor entry,
the value get_returns stores under the label for d is the pure
index-offset return (p last minus p at d rows before) over p at d rows
before, times 100, with no calendar awareness.  The amendment excludes
label collisions: a later week or month tenor whose day-count key shares
the label of d overwrites the stored cell, as the counterexample shows. -/
theorem c1_day_offset_return
    (h : History) (tm : TenorMappings) (mo : Int → Nat → Int) (rd : ReturnsDict)
    (i : Nat) (name : String) (vals : List ℚ) (d : Nat) (lab : String)
    (L : List String) (pl pd : ℚ)
    (hrun : get_returns h tm mo = some rd)
    (hcol : h.cols.get? i = some (name, vals))
    (_hnames : (h.cols.map Prod.fst).Nodup)
    (hd : d ∈ tm.days)
    (hlab : tm.labels.lookup d = some lab)
    (hL : expectedLabels tm = some L)
    (huniq : L.count lab = 1)
    (hlen : d < vals.length)
    (hpl : vals.get? (vals.length - 1) = some pl)
    (hpd : vals.get? (vals.length - (d + 1)) = some pd) :
    (rd.data.get? i).map (fun r => r.label) = some name ∧
    (rd.data.get? i).map (fun r => r.values.lookup lab)
      = some (some (some ((pl - pd) / pd * 100))) := by
  obtain ⟨endDate, rows, hlast, hrows, hlabels, hdata⟩ :=
    get_returns_shape h tm mo rd hrun
  obtain ⟨hrlen, hptr⟩ := omap_get _ h.cols rows hrows
  obtain ⟨r, hri, hfr⟩ := hptr i (name, vals) hcol
  cases hcr : colReturns h.index endDate tm mo vals with
  | none => rw [hcr] at hfr; simp at hfr
  | some es =>
    rw [hcr] at hfr
    simp only [Option.map_some', Option.some.injEq] at hfr
    subst hfr
    have hesL : es.map Prod.fst = L := by
      have h1 := colReturns_labels h.index endDate tm mo vals es hcr
      rw [hL] at h1
      injection h1 with h2
      exact h2.symm
    have hday : dayCalc vals d = some ((pl - pd) / pd * 100) :=
      dayCalc_eq vals d pl pd hlen hpl hpd
    have hentry : entryCalc h.index endDate tm.labels mo vals (Tenor.day d)
        = some (lab, (pl - pd) / pd * 100) := by
      simp only [entryCalc, hday, hlab]
    have hmemT : Tenor.day d ∈ tenorSeq tm := by
      unfold tenorSeq
      exact List.mem_append.mpr (Or.inl (List.mem_append.mpr
        (Or.inl (List.mem_map.mpr ⟨d, hd, rfl⟩))))
    obtain ⟨e, he, hfe⟩ := omap_mem _ (tenorSeq tm) es hcr (Tenor.day d) hmemT
    rw [hentry] at hfe
    have heq : (lab, (pl - pd) / pd * 100) = e := by
      injection hfe with h3
    rw [← heq] at he
    have hcount : (es.map Prod.fst).count lab = 1 := by
      rw [hesL]; exact huniq
    have hlook : lookupLast es lab = some ((pl - pd) / pd * 100) :=
      lookup_reverse_single es lab _ hcount he
    have hlabL : lab ∈ L := by
      by_contra hcontra
      rw [List.count_eq_zero.mpr hcontra] at huniq
      omega
    have hrmem : (name, es) ∈ rows := List.get?_mem hri
    have hchunk : es.map Prod.fst ∈ rows.map (fun r2 => r2.2.map Prod.fst) :=
      List.mem_map.mpr ⟨(name, es), hrmem, rfl⟩
    have hflat : lab ∈ (rows.map (fun r2 => r2.2.map Prod.fst)).flatten :=
      List.mem_flatten.mpr ⟨es.map Prod.fst, hchunk, by rw [hesL]; exact hlabL⟩
    have htenors : lab ∈ dedupFirst
        ((rows.map (fun r2 => r2.2.map Prod.fst)).flatten) := by
      unfold dedupFirst
      exact (mem_dedupGo lab _ []).mpr (Or.inr hflat)
    constructor
    · rw [hdata, List.get?_map, hri]
      rfl
    · rw [hdata, List.get?_map, hri]
      simp only [Option.map_some', Option.some.injEq]
      rw [lookup_map_pair (fun t => lookupLast es t) _ lab htenors, hlook]

/- Counterexample to C1 as stated: the week tenor (1, 5) shares day-count
key 5 with the requested day-count 5, so both write the label 1W; the
calendar week return (minus 92 here) overwrites the day-offset value
(500 over 3 here), so the value stored under the label for d = 5 is not
the index-offset return. -/
theorem c1_day_offset_return_counterexample :
    get_returns
      { index := [0, 1, 2, 3, 4, 5, 6, 7],
        cols := [("A", [100, 2, 3, 4, 5, 6, 7, 8])] }
      { days := [5], weeks := [(1, 5)], months := [], labels := [(5, "1W")] }
      (fun d _ => d)
      = some { data := [{ label := "A", values := [("1W", some (-92))] }],
               labels := ["1W"] } ∧
    ((-92 : ℚ) ≠ ((8 : ℚ) - 3) / 3 * 100) := by
  constructor
  · simp +decide [get_returns, colReturns, omap, entryCalc, tenorSeq,
      tenorLabel, dayCalc, ilocNeg, weekRet, monthRet, calOr, calCalc, locAt,
      dedupFirst, dedupGo, lookupLast, List.zip, List.lookup]
    norm_num
  · norm_num

/- Witness for C1 on a collision-free tenor mapping. -/
theorem c1_day_offset_return_witness :
    (({ data := [{ label := "A",
                   values := [("1D", some ((100 : ℚ) / 7)),
                              ("1W", some ((500 : ℚ) / 3))] }],
        labels := ["1D", "1W"] } : ReturnsDict).data.get? 0).map
        (fun r => r.values.lookup ("1W"))
      = some (some (some (((8 : ℚ) - 3) / 3 * 100))) :=
  (c1_day_offset_return
    { index := [0, 1, 2, 3, 4, 5, 6, 7],
      cols := [("A", [1, 2, 3, 4, 5, 6, 7, 8])] }
    { days := [1, 5], weeks := [], months := [],
      labels := [(1, "1D"), (5, "1W")] }
    (fun d _ => d)
    { data := [{ label := "A",
                 values := [("1D", some ((100 : ℚ) / 7)),
                            ("1W", some ((500 : ℚ) / 3))] }],
      labels := ["1D", "1W"] }
    0 ("A") [1, 2, 3, 4, 5, 6, 7, 8] 5 ("1W") ["1D", "1W"] 8 3
    (by
      simp +decide [get_returns, colReturns, omap, entryCalc, tenorSeq,
        tenorLabel, dayCalc, ilocNeg, weekRet, monthRet, calOr, calCalc,
        locAt, dedupFirst, dedupGo, lookupLast, List.zip, List.lookup]
      norm_num)
    (by decide) (by decide) (by decide) (by decide) (by decide)
    (by decide) (by decide) (by decide) (by decide)).2

theorem map_fst_pairs {β : Type} (g : String → β) :
    ∀ (L : List String), ((L.map (fun t => (t, g t))).map Prod.fst) = L := by
  intro L
  induction L with
  | nil => rfl
  | cons x xs ih => simp only [List.map_cons, ih]

/-- Claim C4 (amended): for a history with at least one instrument column
and pairwise distinct instrument names and tenor labels, the output of
get_returns holds a data list with exactly one record per instrument
column in column order, each record carrying the instrument name as its
label plus exactly one value per tenor label, and a labels list equal to
the tenor labels in declaration order: day-counts first, then weeks, then
months.  The amendment adds the nonempty-columns and distinctness
provisos: with no instrument columns the labels list is empty, as the
counterexample shows. -/
theorem c4_output_shape
    (h : History) (tm : TenorMappings) (mo : Int → Nat → Int)
    (rd : ReturnsDict) (L : List String)
    (hrun : get_returns h tm mo = some rd)
    (hne : h.cols ≠ [])
    (_hnames : (h.cols.map Prod.fst).Nodup)
    (hL : expectedLabels tm = some L)
    (hnd : L.Nodup) :
    rd.labels = L ∧
    rd.data.length = h.cols.length ∧
    (∀ (i : Nat) (name : String) (vals : List ℚ),
      h.cols.get? i = some (name, vals) →
      (rd.data.get? i).map (fun r => r.label) = some name ∧
      (rd.data.get? i).map (fun r => r.values.map Prod.fst) = some L) := by
  obtain ⟨endDate, rows, hlast, hrows, hlabels, hdata⟩ :=
    get_returns_shape h tm mo rd hrun
  have hall : ∀ r ∈ rows, r.2.map Prod.fst = L :=
    rows_labels_eq h.index endDate tm mo h.cols rows L hrows hL
  obtain ⟨hrlen, hptr⟩ := omap_get _ h.cols rows hrows
  have hrne : rows ≠ [] := by
    intro hcontra
    apply hne
    rw [hcontra] at hrlen
    exact List.length_eq_zero.mp hrlen.symm
  have htenors : dedupFirst
      ((rows.map (fun r2 => r2.2.map Prod.fst)).flatten) = L := by
    apply dedupFirst_flatten_const _ L hnd
    · intro hcontra
      exact hrne (List.map_eq_nil.mp hcontra)
    · intro c hc
      obtain ⟨r, hr, hcr⟩ := List.mem_map.mp hc
      rw [← hcr]
      exact hall r hr
  refine ⟨?_, ?_, ?_⟩
  · rw [hlabels, htenors]
  · rw [hdata, List.length_map, hrlen]
  · intro i name vals hci
    obtain ⟨r, hri, hfr⟩ := hptr i (name, vals) hci
    cases hcr : colReturns h.index endDate tm mo vals with
    | none => rw [hcr] at hfr; simp at hfr
    | some es =>
      rw [hcr] at hfr
      simp only [Option.map_some', Option.some.injEq] at hfr
      subst hfr
      constructor
      · rw [hdata, List.get?_map, hri]
        rfl
      · rw [hdata, List.get?_map, hri]
        simp only [Option.map_some', Option.some.injEq]
        rw [htenors]
        exact map_fst_pairs (fun t => lookupLast es t) L

/- Counterexample to C4 as stated: a history with a nonempty date index
but no instrument columns makes get_returns succeed with an empty labels
list, although the tenor mapping declares the label 1D. -/
theorem c4_output_shape_counterexample :
    get_returns { index := [0], cols := [] }
      { days := [1], weeks := [], months := [], labels := [(1, "1D")] }
      (fun d _ => d) = some { data := [], labels := [] } ∧
    expectedLabels
      { days := [1], weeks := [], months := [], labels := [(1, "1D")] }
      = some ["1D"] ∧
    ([] : List String) ≠ ["1D"] := by
  refine ⟨by decide, by decide, by decide⟩

/- Witness for C4: one column, one day tenor and one week tenor with
distinct labels. -/
theorem c4_output_shape_witness :
    ({ data := [{ label := "A",
                  values := [("1D", some ((100 : ℚ) / 7)),
                             ("1W", some (700 : ℚ))] }],
       labels := ["1D", "1W"] } : ReturnsDict).labels = ["1D", "1W"] ∧
    ({ data := [{ label := "A",
                  values := [("1D", some ((100 : ℚ) / 7)),
                             ("1W", some (700 : ℚ))] }],
       labels := ["1D", "1W"] } : ReturnsDict).data.length
      = ({ index := [0, 1, 2, 3, 4, 5, 6, 7],
           cols := [("A", [1, 2, 3, 4, 5, 6, 7, 8])] } : History).cols.length :=
  ⟨(c4_output_shape
      { index := [0, 1, 2, 3, 4, 5, 6, 7],
        cols := [("A", [1, 2, 3, 4, 5, 6, 7, 8])] }
      { days := [1], weeks := [(1, 5)], months := [],
        labels := [(1, "1D"), (5, "1W")] }
      (fun d _ => d)
      { data := [{ label := "A",
                   values := [("1D", some ((100 : ℚ) / 7)),
                              ("1W", some (700 : ℚ))] }],
        labels := ["1D", "1W"] }
      ["1D", "1W"]
      (by
        simp +decide [get_returns, colReturns, omap, entryCalc, tenorSeq,
          tenorLabel, dayCalc, ilocNeg, weekRet, monthRet, calOr, calCalc,
          locAt, dedupFirst, dedupGo, lookupLast, List.zip, List.lookup]
        norm_num)
      (by decide) (by decide) (by decide) (by decide)).1,
   (c4_output_shape
      { index := [0, 1, 2, 3, 4, 5, 6, 7],
        cols := [("A", [1, 2, 3, 4, 5, 6, 7, 8])] }
      { days := [1], weeks := [(1, 5)], months := [],
        labels := [(1, "1D"), (5, "1W")] }
      (fun d _ => d)
      { data := [{ label := "A",
                   values := [("1D", some ((100 : ℚ) / 7)),
                              ("1W", some (700 : ℚ))] }],
        labels := ["1D", "1W"] }
      ["1D", "1W"]
      (by
        simp +decide [get_returns, colReturns, omap, entryCalc, tenorSeq,
          tenorLabel, dayCalc, ilocNeg, weekRet, monthRet, calOr, calCalc,
          locAt, dedupFirst, dedupGo, lookupLast, List.zip, List.lookup]
        norm_num)
      (by decide) (by decide) (by decide) (by decide)).2.1⟩
